import Mathlib

/-!
Verification of the coffeediary application's aggregation and filtering
logic: a shallow embedding of the entries-list filter/sort pipeline
(`src/coffeediary/src/app/entries/page.tsx`), the dashboard statistics
(`DashboardPage.getStats`), the trends charts (`CoffeeTrends`), and the
authentication error mapping (`src/coffeediary/src/app/auth/page.tsx`),
together with proofs of the documented properties.

Modelling conventions: JavaScript strings are `String`; numbers that hold
integral values (ratings, taste attributes, counts) are `Int`/`Nat`;
averages are `ℚ`. A JS `Date` is modelled by the three projections the
code reads from it (`getTime`, `getFullYear`, `getMonth`). JS
`Array.prototype.sort` with a consistent comparator is modelled by a
stable insertion sort on the comparator's key (ECMAScript requires sort
stability). A JS plain object used as a string-keyed counter map is
modelled by an insertion-ordered association list.
-/

namespace CoffeeDiary

/-- JS `String.prototype.startsWith` on character lists. -/
def charsStart : List Char → List Char → Bool
  | [], _ => true
  | _ :: _, [] => false
  | a :: as, b :: bs => a == b && charsStart as bs

/-- Substring occurrence on character lists. -/
def charsContain (needle : List Char) : List Char → Bool
  | [] => needle.isEmpty
  | c :: rest => charsStart needle (c :: rest) || charsContain needle rest

/-- JS `s.includes(sub)`. -/
def jsIncludes (s sub : String) : Bool :=
  charsContain sub.toList s.toList

/-- JS `s.toLowerCase()` (ASCII case folding). -/
def jsToLower (s : String) : String :=
  ⟨s.toList.map Char.toLower⟩

/-- JS `s.trim()`: strip leading and trailing whitespace. -/
def jsTrim (s : String) : String :=
  ⟨((s.toList.dropWhile Char.isWhitespace).reverse.dropWhile Char.isWhitespace).reverse⟩

/-- The three projections of a JS `Date` that the application reads:
`getTime()`, `getFullYear()`, `getMonth()` (0-based month). -/
structure JsDate where
  time : Int
  year : Int
  month : Fin 12
deriving DecidableEq

/-- A coffee-tasting record, with the fields selected by the entries and
dashboard pages (`CoffeeEntry` interfaces in the source). -/
structure CoffeeEntry where
  id : String
  bean_name : String
  bean_origin : String
  roast_level : String
  brew_method : String
  rating : Int
  sourness : Int
  sweetness : Int
  bitterness : Int
  richness : Int
  created_at : JsDate
deriving DecidableEq

/-- Insert one element into a list sorted descending by `key`, placing it
before the first element whose key is not larger (so an element inserted
later never jumps ahead of an equal-key element already present). -/
def insertDescBy {α : Type} (key : α → Int) (x : α) : List α → List α
  | [] => [x]
  | y :: ys => if key x < key y then y :: insertDescBy key x ys else x :: y :: ys

/-- Stable sort, descending by `key`: the model of JS
`Array.prototype.sort((a, b) => key b - key a)`. -/
def sortDescBy {α : Type} (key : α → Int) : List α → List α
  | [] => []
  | x :: xs => insertDescBy key x (sortDescBy key xs)

/-- Keyword match of the entries page: case-insensitive substring match of
the (already lowercased) term against bean name or origin. -/
def searchMatch (term : String) (e : CoffeeEntry) : Bool :=
  jsIncludes (jsToLower e.bean_name) term || jsIncludes (jsToLower e.bean_origin) term

/-- The filter part of the entries-page pipeline
(`src/coffeediary/src/app/entries/page.tsx:106-137`): keyword search,
origin / roast / brew-method equality filters, minimum-rating filter,
each applied only when its parameter is set. -/
def filterStage (entries : List CoffeeEntry)
    (searchTerm originFilter roastFilter brewMethodFilter : String)
    (ratingFilter : Int) : List CoffeeEntry :=
  let r1 := if jsTrim searchTerm ≠ "" then
      entries.filter (searchMatch (jsToLower searchTerm))
    else entries
  let r2 := if originFilter ≠ "" then
      r1.filter (fun e => e.bean_origin == originFilter)
    else r1
  let r3 := if roastFilter ≠ "" then
      r2.filter (fun e => e.roast_level == roastFilter)
    else r2
  let r4 := if brewMethodFilter ≠ "" then
      r3.filter (fun e => e.brew_method == brewMethodFilter)
    else r3
  let r5 := if ratingFilter > 0 then
      r4.filter (fun e => decide (ratingFilter ≤ e.rating))
    else r4
  r5

/-- The entries page's two sort modes. -/
inductive SortBy where
  | date : SortBy
  | rating : SortBy
deriving DecidableEq

/-- The full entries-page pipeline
(`src/coffeediary/src/app/entries/page.tsx:106-147`): filter, then sort
by rating descending or by creation time descending. -/
def entriesView (entries : List CoffeeEntry)
    (searchTerm originFilter roastFilter brewMethodFilter : String)
    (ratingFilter : Int) (sortBy : SortBy) : List CoffeeEntry :=
  match sortBy with
  | SortBy.rating =>
      sortDescBy (fun e => e.rating)
        (filterStage entries searchTerm originFilter roastFilter brewMethodFilter ratingFilter)
  | SortBy.date =>
      sortDescBy (fun e => e.created_at.time)
        (filterStage entries searchTerm originFilter roastFilter brewMethodFilter ratingFilter)

theorem mem_insertDescBy {α : Type} (key : α → Int) (x a : α) (l : List α) :
    a ∈ insertDescBy key x l ↔ a = x ∨ a ∈ l := by
  induction l with
  | nil => simp [insertDescBy]
  | cons y ys ih =>
      unfold insertDescBy
      split
      · simp only [List.mem_cons, ih]
        tauto
      · simp only [List.mem_cons]

theorem mem_sortDescBy {α : Type} (key : α → Int) (a : α) (l : List α) :
    a ∈ sortDescBy key l ↔ a ∈ l := by
  induction l with
  | nil => simp [sortDescBy]
  | cons x xs ih =>
      unfold sortDescBy
      rw [mem_insertDescBy]
      simp [ih]

theorem pairwise_insertDescBy {α : Type} (key : α → Int) (x : α) (l : List α)
    (h : l.Pairwise (fun a b => key b ≤ key a)) :
    (insertDescBy key x l).Pairwise (fun a b => key b ≤ key a) := by
  induction l with
  | nil => simp [insertDescBy]
  | cons y ys ih =>
      rw [List.pairwise_cons] at h
      unfold insertDescBy
      split
      · rename_i hlt
        rw [List.pairwise_cons]
        refine ⟨?_, ih h.2⟩
        intro z hz
        rcases (mem_insertDescBy key x z ys).1 hz with hz | hz
        · subst hz; omega
        · exact h.1 z hz
      · rename_i hge
        rw [List.pairwise_cons]
        constructor
        · intro z hz
          rcases List.mem_cons.1 hz with hz | hz
          · subst hz; omega
          · have := h.1 z hz; omega
        · rw [List.pairwise_cons]
          exact h

theorem pairwise_sortDescBy {α : Type} (key : α → Int) (l : List α) :
    (sortDescBy key l).Pairwise (fun a b => key b ≤ key a) := by
  induction l with
  | nil => simp [sortDescBy]
  | cons x xs ih => exact pairwise_insertDescBy key x _ ih

theorem sortDescBy_of_sorted {α : Type} (key : α → Int) (l : List α)
    (h : l.Pairwise (fun a b => key b ≤ key a)) :
    sortDescBy key l = l := by
  induction l with
  | nil => rfl
  | cons x xs ih =>
      rw [List.pairwise_cons] at h
      unfold sortDescBy
      rw [ih h.2]
      cases xs with
      | nil => rfl
      | cons y ys =>
          unfold insertDescBy
          have hyx : key y ≤ key x := h.1 y (List.mem_cons_self y ys)
          rw [if_neg (by omega)]

theorem filter_insertDescBy {α : Type} (key : α → Int) (x : α) (l : List α) (r : Int) :
    (insertDescBy key x l).filter (fun a => decide (key a = r))
      = (if key x = r then [x] else []) ++ l.filter (fun a => decide (key a = r)) := by
  induction l with
  | nil =>
      unfold insertDescBy
      by_cases hx : key x = r <;> simp [hx]
  | cons y ys ih =>
      unfold insertDescBy
      by_cases hlt : key x < key y
      · rw [if_pos hlt]
        by_cases hy : key y = r
        · have hx : ¬ key x = r := by omega
          simp [List.filter_cons, hy, hx, ih]
        · by_cases hx : key x = r <;> simp [List.filter_cons, hy, hx, ih]
      · rw [if_neg hlt]
        by_cases hx : key x = r <;> simp [List.filter_cons, hx]

theorem filter_sortDescBy {α : Type} (key : α → Int) (l : List α) (r : Int) :
    (sortDescBy key l).filter (fun a => decide (key a = r))
      = l.filter (fun a => decide (key a = r)) := by
  induction l with
  | nil => rfl
  | cons x xs ih =>
      unfold sortDescBy
      rw [filter_insertDescBy, ih, List.filter_cons]
      by_cases hx : key x = r <;> simp [hx]

theorem mem_of_ite_filter {α : Type} {c : Prop} [Decidable c] {p : α → Bool}
    {l : List α} {e : α} (h : e ∈ if c then l.filter p else l) : e ∈ l := by
  split at h
  · exact (List.mem_filter.1 h).1
  · exact h

theorem mem_of_mem_filterStage (entries : List CoffeeEntry)
    (st o r b : String) (rf : Int) (e : CoffeeEntry)
    (h : e ∈ filterStage entries st o r b rf) : e ∈ entries := by
  simp only [filterStage] at h
  exact mem_of_ite_filter (mem_of_ite_filter (mem_of_ite_filter
    (mem_of_ite_filter (mem_of_ite_filter h))))

/-- Entry with the given identifying fields, rating and date; taste
attributes fixed at 3. -/
def mkEntry (name origin roast brew : String) (rating : Int) (d : JsDate) : CoffeeEntry :=
  { id := name, bean_name := name, bean_origin := origin, roast_level := roast,
    brew_method := brew, rating := rating, sourness := 3, sweetness := 3,
    bitterness := 3, richness := 3, created_at := d }

/-- Entry of the spec's sorting example dated 2024-01-01, rating 5. -/
def janEntry : CoffeeEntry := mkEntry ("jan") ("") ("") ("") 5 ⟨1704067200000, 2024, 0⟩

/-- Entry of the spec's sorting example dated 2024-02-01, rating 3. -/
def febEntry : CoffeeEntry := mkEntry ("feb") ("") ("") ("") 3 ⟨1706745600000, 2024, 1⟩

/-- Entry of the spec's sorting example dated 2024-03-01, rating 5. -/
def marEntry : CoffeeEntry := mkEntry ("mar") ("") ("") ("") 5 ⟨1709251200000, 2024, 2⟩

/-- C1: for every entry list and every combination of the five filter
parameters, the entries-list pipeline output is a subset of the base
list; and when every filter is absent (empty or whitespace-only search
term, empty equality filters, rating threshold 0) under the default date
sort, the output equals the base list, the base list being in the
date-descending order in which it was fetched. -/
theorem entries_filter_subset_and_reset (entries : List CoffeeEntry)
    (hbase : entries.Pairwise (fun a b => b.created_at.time ≤ a.created_at.time)) :
    (∀ (st o r b : String) (rf : Int) (sb : SortBy),
      ∀ e ∈ entriesView entries st o r b rf sb, e ∈ entries) ∧
    (∀ st : String, jsTrim st = "" →
      entriesView entries st ("") ("") ("") 0 SortBy.date = entries) := by
  constructor
  · intro st o r b rf sb e he
    have hf : e ∈ filterStage entries st o r b rf := by
      cases sb <;> simpa [entriesView, mem_sortDescBy] using he
    exact mem_of_mem_filterStage _ _ _ _ _ _ _ hf
  · intro st hst
    have hfs : filterStage entries st ("") ("") ("") 0 = entries := by
      simp [filterStage, hst]
    simp only [entriesView, hfs]
    exact sortDescBy_of_sorted _ _ hbase

theorem entries_filter_subset_and_reset_witness :
    (∀ e ∈ entriesView [marEntry, febEntry, janEntry] (" ") ("x") ("") ("") 3 SortBy.rating,
        e ∈ [marEntry, febEntry, janEntry]) ∧
    entriesView [marEntry, febEntry, janEntry] (" ") ("") ("") ("") 0 SortBy.date
      = [marEntry, febEntry, janEntry] := by
  have h := entries_filter_subset_and_reset [marEntry, febEntry, janEntry] (by decide)
  exact ⟨h.1 (" ") ("x") ("") ("") 3 SortBy.rating, h.2 (" ") (by decide)⟩

/-- C2: with sort mode "rating" the pipeline output is ordered by rating
descending and the sort is stable: for each rating value, the entries
holding that rating appear in the same relative order as in the filtered
base list (which preserves the base date-descending order); and on the
spec's three-entry example the output order is
Jan-01(5), Mar-01(5), Feb-01(3). -/
theorem entries_sort_rating_stable :
    (∀ (entries : List CoffeeEntry) (st o r b : String) (rf : Int),
      (entriesView entries st o r b rf SortBy.rating).Pairwise
        (fun a b => b.rating ≤ a.rating)) ∧
    (∀ (entries : List CoffeeEntry) (st o r b : String) (rf : Int) (q : Int),
      (entriesView entries st o r b rf SortBy.rating).filter
          (fun e => decide (e.rating = q))
        = (filterStage entries st o r b rf).filter (fun e => decide (e.rating = q))) ∧
    entriesView [janEntry, febEntry, marEntry] ("") ("") ("") ("") 0 SortBy.rating
      = [janEntry, marEntry, febEntry] := by
  refine ⟨?_, ?_, by decide⟩
  · intro entries st o r b rf
    exact pairwise_sortDescBy (fun e : CoffeeEntry => e.rating) _
  · intro entries st o r b rf q
    exact filter_sortDescBy (fun e : CoffeeEntry => e.rating) _ q

/-- Per-entry keyword predicate: matches all entries when the search term
is blank, otherwise requires the case-insensitive substring match. -/
def keywordPredicate (st : String) (e : CoffeeEntry) : Bool :=
  if jsTrim st ≠ "" then searchMatch (jsToLower st) e else true

/-- Per-entry origin equality predicate; matches all when unset. -/
def originPredicate (o : String) (e : CoffeeEntry) : Bool :=
  if o ≠ "" then e.bean_origin == o else true

/-- Per-entry roast-level equality predicate; matches all when unset. -/
def roastPredicate (r : String) (e : CoffeeEntry) : Bool :=
  if r ≠ "" then e.roast_level == r else true

/-- Per-entry brew-method equality predicate; matches all when unset. -/
def brewPredicate (b : String) (e : CoffeeEntry) : Bool :=
  if b ≠ "" then e.brew_method == b else true

/-- Per-entry minimum-rating predicate; matches all when the threshold
is 0 (or negative). -/
def ratingPredicate (rf : Int) (e : CoffeeEntry) : Bool :=
  if rf > 0 then decide (rf ≤ e.rating) else true

/-- The five per-entry predicates in the order the code applies them. -/
def codeOrderPredicates (st o r b : String) (rf : Int) : List (CoffeeEntry → Bool) :=
  [keywordPredicate st, originPredicate o, roastPredicate r, brewPredicate b,
    ratingPredicate rf]

/-- Sequential application of a list of per-entry predicates as
successive `filter` passes. -/
def applyPredicates (entries : List CoffeeEntry)
    (ps : List (CoffeeEntry → Bool)) : List CoffeeEntry :=
  ps.foldl (fun l p => l.filter p) entries

theorem applyPredicates_eq_filter_all (entries : List CoffeeEntry)
    (ps : List (CoffeeEntry → Bool)) :
    applyPredicates entries ps = entries.filter (fun e => ps.all (fun p => p e)) := by
  induction ps generalizing entries with
  | nil => simp [applyPredicates]
  | cons p ps ih =>
      have h1 : applyPredicates entries (p :: ps)
          = applyPredicates (entries.filter p) ps := rfl
      rw [h1, ih, List.filter_filter]
      exact List.filter_congr (fun a _ => Bool.and_comm _ _)

theorem all_of_perm (ps qs : List (CoffeeEntry → Bool)) (h : ps.Perm qs)
    (e : CoffeeEntry) :
    ps.all (fun p => p e) = qs.all (fun p => p e) := by
  induction h with
  | nil => rfl
  | cons x _ ih => simp [List.all_cons, ih]
  | swap x y l => cases hx : x e <;> cases hy : y e <;> simp [List.all_cons, hx, hy]
  | trans _ _ ih1 ih2 => rw [ih1, ih2]

theorem filter_keywordPredicate (st : String) (l : List CoffeeEntry) :
    l.filter (keywordPredicate st)
      = if jsTrim st ≠ "" then l.filter (searchMatch (jsToLower st)) else l := by
  by_cases h : jsTrim st = ""
  · simp [h]
    intro a _
    simp [keywordPredicate, h]
  · simp [h]
    exact List.filter_congr (fun e _ => by simp [keywordPredicate, h])

theorem filter_originPredicate (o : String) (l : List CoffeeEntry) :
    l.filter (originPredicate o)
      = if o ≠ "" then l.filter (fun e => e.bean_origin == o) else l := by
  by_cases h : o = ""
  · simp [h]
    intro a _
    simp [originPredicate, h]
  · simp [h]
    exact List.filter_congr (fun e _ => by simp [originPredicate, h])

theorem filter_roastPredicate (r : String) (l : List CoffeeEntry) :
    l.filter (roastPredicate r)
      = if r ≠ "" then l.filter (fun e => e.roast_level == r) else l := by
  by_cases h : r = ""
  · simp [h]
    intro a _
    simp [roastPredicate, h]
  · simp [h]
    exact List.filter_congr (fun e _ => by simp [roastPredicate, h])

theorem filter_brewPredicate (b : String) (l : List CoffeeEntry) :
    l.filter (brewPredicate b)
      = if b ≠ "" then l.filter (fun e => e.brew_method == b) else l := by
  by_cases h : b = ""
  · simp [h]
    intro a _
    simp [brewPredicate, h]
  · simp [h]
    exact List.filter_congr (fun e _ => by simp [brewPredicate, h])

theorem filter_ratingPredicate (rf : Int) (l : List CoffeeEntry) :
    l.filter (ratingPredicate rf)
      = if rf > 0 then l.filter (fun e => decide (rf ≤ e.rating)) else l := by
  by_cases h : rf > 0
  · simp [h]
    exact List.filter_congr (fun e _ => by simp [ratingPredicate, h])
  · simp [h]
    intro a _
    simp [ratingPredicate, h]

/-- C3: the five entry filters are pure per-entry predicates that compose
conjunctively: applying them sequentially in any evaluation order yields
the same list, equal to a single filter by the conjunction of all five
predicates; and the sequential application in the code's order is exactly
the pipeline's filter stage. -/
theorem filters_conjunctive_any_order (entries : List CoffeeEntry)
    (st o r b : String) (rf : Int) (ps : List (CoffeeEntry → Bool))
    (hp : ps.Perm (codeOrderPredicates st o r b rf)) :
    applyPredicates entries ps
      = entries.filter (fun e =>
          keywordPredicate st e && (originPredicate o e && (roastPredicate r e &&
            (brewPredicate b e && ratingPredicate rf e)))) ∧
    applyPredicates entries (codeOrderPredicates st o r b rf)
      = filterStage entries st o r b rf := by
  constructor
  · rw [applyPredicates_eq_filter_all]
    have hfun : (fun e => ps.all (fun p => p e))
        = fun e => (codeOrderPredicates st o r b rf).all (fun p => p e) :=
      funext (all_of_perm _ _ hp)
    rw [hfun]
    simp [codeOrderPredicates, List.all_cons]
  · have h1 : applyPredicates entries (codeOrderPredicates st o r b rf)
        = ((((entries.filter (keywordPredicate st)).filter
            (originPredicate o)).filter (roastPredicate r)).filter
            (brewPredicate b)).filter (ratingPredicate rf) := rfl
    rw [h1, filter_keywordPredicate, filter_originPredicate, filter_roastPredicate,
      filter_brewPredicate, filter_ratingPredicate]
    simp only [filterStage]

theorem filters_conjunctive_any_order_witness :
    applyPredicates [janEntry, febEntry, marEntry]
        [originPredicate (""), keywordPredicate (" "), roastPredicate (""),
          brewPredicate (""), ratingPredicate 4]
      = [janEntry, febEntry, marEntry].filter (fun e =>
          keywordPredicate (" ") e && (originPredicate ("") e && (roastPredicate ("") e &&
            (brewPredicate ("") e && ratingPredicate 4 e)))) ∧
    applyPredicates [janEntry, febEntry, marEntry]
        (codeOrderPredicates (" ") ("") ("") ("") 4)
      = filterStage [janEntry, febEntry, marEntry] (" ") ("") ("") ("") 4 :=
  filters_conjunctive_any_order [janEntry, febEntry, marEntry] (" ") ("") ("") ("") 4
    [originPredicate (""), keywordPredicate (" "), roastPredicate (""),
      brewPredicate (""), ratingPredicate 4]
    (by unfold codeOrderPredicates; exact List.Perm.swap _ _ _)

/-- One counting step of JS `counts[k] = (counts[k] || 0) + 1` on an
insertion-ordered string-keyed object. -/
def bump (m : List (String × Nat)) (k : String) : List (String × Nat) :=
  if m.any (fun p => p.1 == k) then
    m.map (fun p => if p.1 == k then (p.1, p.2 + 1) else p)
  else m ++ [(k, 1)]

/-- Model of `methodCounts` / `originCounts` in `DashboardPage.getStats`
(`src/unnamed/part_002:80-99`): count entries by a string field, skipping
falsy (empty) values. -/
def countBy (f : CoffeeEntry → String) (entries : List CoffeeEntry) :
    List (String × Nat) :=
  entries.foldl (fun m e => if f e ≠ "" then bump m (f e) else m) []

/-- Model of `Object.entries(counts).sort((a, b) => b[1] - a[1]).shift()` followed
by the `topX ? topX[0] : "なし"` fallback. -/
def topOf (m : List (String × Nat)) : String :=
  match sortDescBy (fun p => (p.2 : Int)) m with
  | [] => "なし"
  | p :: _ => p.1

/-- Model of `entries.reduce((sum, entry) => sum + entry.rating, 0)`. -/
def sumRatings (entries : List CoffeeEntry) : Int :=
  entries.foldl (fun s e => s + e.rating) 0

/-- Average rating with the `/(totalEntries || 1)` zero-count guard of
`getStats`. -/
def avgRatingQ (entries : List CoffeeEntry) : ℚ :=
  (sumRatings entries : ℚ) / (if entries.length = 0 then 1 else (entries.length : ℚ))

/-- JS `x.toFixed(1)` for the nonnegative rationals this application
produces: round half away from zero to one decimal place. -/
def toFixed1 (q : ℚ) : String :=
  let n : Nat := (⌊q * 10 + 1 / 2⌋).toNat
  toString (n / 10) ++ "." ++ toString (n % 10)

/-- The dashboard summary produced by `DashboardPage.getStats`. -/
structure Stats where
  totalEntries : Nat
  avgRating : String
  topMethod : String
  topOrigin : String
  thisMonth : Nat
deriving DecidableEq

/-- Model of `DashboardPage.getStats` (`src/unnamed/part_002:73-112`). -/
def getStats (now : JsDate) (entries : List CoffeeEntry) : Stats :=
  { totalEntries := entries.length
    avgRating := toFixed1 (avgRatingQ entries)
    topMethod := topOf (countBy (fun e => e.brew_method) entries)
    topOrigin := topOf (countBy (fun e => e.bean_origin) entries)
    thisMonth := (entries.filter (fun e =>
      decide (e.created_at.month = now.month ∧ e.created_at.year = now.year))).length }

/-- Taste attribute sums of `CoffeeTrends.tasteProfileData`. -/
def tasteTotals (entries : List CoffeeEntry) : Int × Int × Int × Int :=
  entries.foldl
    (fun t e => (t.1 + e.sourness, t.2.1 + e.sweetness, t.2.2.1 + e.bitterness,
      t.2.2.2 + e.richness))
    (0, 0, 0, 0)

/-- Taste-profile averages with the `entries.length || 1` zero-division
guard (`src/unnamed/part_003:160-192`). -/
def tasteAverages (entries : List CoffeeEntry) : ℚ × ℚ × ℚ × ℚ :=
  let t := tasteTotals entries
  let count : ℚ := if entries.length = 0 then 1 else (entries.length : ℚ)
  ((t.1 : ℚ) / count, (t.2.1 : ℚ) / count, (t.2.2.1 : ℚ) / count,
    (t.2.2.2 : ℚ) / count)

/-- C6: on the empty entry list the dashboard averages are the neutral
value 0, not NaN or an error: the average rating is 0 and renders as
"0.0", and all four taste-attribute averages are 0. -/
theorem empty_list_averages_neutral (now : JsDate) :
    avgRatingQ [] = 0 ∧ (getStats now []).avgRating = "0.0" ∧
    tasteAverages [] = (0, 0, 0, 0) := by
  have h0 : avgRatingQ [] = 0 := by
    simp [avgRatingQ, sumRatings]
  refine ⟨h0, ?_, ?_⟩
  · show toFixed1 (avgRatingQ []) = "0.0"
    rw [h0]
    have h2 : (⌊(0 : ℚ) * 10 + 1 / 2⌋).toNat = 0 := by norm_num
    simp only [toFixed1, h2]
    decide
  · norm_num [tasteAverages, tasteTotals]

theorem countBy_nil_of_all_empty (f : CoffeeEntry → String) :
    ∀ l : List CoffeeEntry, (∀ e ∈ l, f e = "") → countBy f l = [] := by
  intro l
  induction l with
  | nil => intro _; rfl
  | cons e l ih =>
      intro h
      have he : f e = "" := h e (List.mem_cons_self e l)
      unfold countBy
      rw [List.foldl_cons, if_neg (by simp [he])]
      exact ih (fun x hx => h x (List.mem_cons_of_mem e hx))

theorem countBy_keys_ne_empty (f : CoffeeEntry → String) (l : List CoffeeEntry) :
    ∀ p ∈ countBy f l, p.1 ≠ "" := by
  suffices hgen : ∀ m : List (String × Nat), (∀ p ∈ m, p.1 ≠ "") →
      ∀ p ∈ l.foldl (fun m e => if f e ≠ "" then bump m (f e) else m) m, p.1 ≠ "" by
    exact hgen [] (by simp)
  induction l with
  | nil => intro m hm; simpa using hm
  | cons e l ih =>
      intro m hm
      rw [List.foldl_cons]
      apply ih
      by_cases he : f e = ""
      · rw [if_neg (by simp [he])]
        exact hm
      · rw [if_pos (by simp [he])]
        intro p hp
        unfold bump at hp
        split at hp
        · obtain ⟨q, hq, hpq⟩ := List.mem_map.1 hp
          have hfst : p.1 = q.1 := by
            rw [← hpq]
            split <;> rfl
          rw [hfst]
          exact hm q hq
        · rcases List.mem_append.1 hp with hp | hp
          · exact hm p hp
          · simp at hp
            rw [hp]
            exact he

theorem topOf_mem_or_default (m : List (String × Nat)) :
    topOf m = "なし" ∨ ∃ p ∈ m, topOf m = p.1 := by
  unfold topOf
  cases hs : sortDescBy (fun p => (p.2 : Int)) m with
  | nil => exact Or.inl rfl
  | cons p rest =>
      right
      refine ⟨p, ?_, rfl⟩
      have hmem : p ∈ sortDescBy (fun p => (p.2 : Int)) m := by
        rw [hs]
        exact List.mem_cons_self _ _
      exact (mem_sortDescBy _ _ _).1 hmem

/-- C10: when no entry has a non-empty brew method (resp. origin), the
dashboard's most-frequent-brew-method (resp. most-frequent-origin)
computation returns the fallback "なし" rather than failing; and since
entries with empty values never contribute a group, the reported top
value is never the empty string. -/
theorem top_method_origin_fallback (now : JsDate) (entries : List CoffeeEntry) :
    ((∀ e ∈ entries, e.brew_method = "") → (getStats now entries).topMethod = "なし") ∧
    ((∀ e ∈ entries, e.bean_origin = "") → (getStats now entries).topOrigin = "なし") ∧
    (getStats now entries).topMethod ≠ "" ∧
    (getStats now entries).topOrigin ≠ "" := by
  refine ⟨?_, ?_, ?_, ?_⟩
  · intro h
    show topOf (countBy (fun e => e.brew_method) entries) = "なし"
    rw [countBy_nil_of_all_empty _ entries h]
    rfl
  · intro h
    show topOf (countBy (fun e => e.bean_origin) entries) = "なし"
    rw [countBy_nil_of_all_empty _ entries h]
    rfl
  · show topOf (countBy (fun e => e.brew_method) entries) ≠ ""
    rcases topOf_mem_or_default (countBy (fun e => e.brew_method) entries) with h | ⟨p, hp, h⟩
    · rw [h]
      decide
    · rw [h]
      exact countBy_keys_ne_empty _ _ p hp
  · show topOf (countBy (fun e => e.bean_origin) entries) ≠ ""
    rcases topOf_mem_or_default (countBy (fun e => e.bean_origin) entries) with h | ⟨p, hp, h⟩
    · rw [h]
      decide
    · rw [h]
      exact countBy_keys_ne_empty _ _ p hp

/-- A fixed reference date used as wall-clock "now" in witnesses. -/
def sampleNow : JsDate := ⟨0, 2024, 0⟩

/-- Entry with neither origin nor brew method set. -/
def plainEntry : CoffeeEntry := mkEntry ("plain") ("") ("") ("") 4 ⟨0, 2024, 0⟩

theorem top_method_origin_fallback_witness :
    (getStats sampleNow [plainEntry]).topMethod = "なし" ∧
    (getStats sampleNow [plainEntry]).topOrigin = "なし" ∧
    (getStats sampleNow [plainEntry]).topMethod ≠ "" ∧
    (getStats sampleNow [plainEntry]).topOrigin ≠ "" := by
  have h := top_method_origin_fallback sampleNow [plainEntry]
  exact ⟨h.1 (by decide), h.2.1 (by decide), h.2.2.1, h.2.2.2⟩

/-- JS `counts[k]++` on a string-keyed object whose keys are fixed:
increment the value at key `k`, leaving other pairs unchanged. -/
def incKey (m : List (String × Nat)) (k : String) : List (String × Nat) :=
  m.map (fun p => if p.1 == k then (p.1, p.2 + 1) else p)

/-- The six bucket keys of `CoffeeTrends.roastLevelData`, in the
insertion order of the `levels` object. -/
def ROAST_KEYS : List String :=
  ["浅煎り", "中浅煎り", "中煎り", "中深煎り", "深煎り", "その他/不明"]

/-- One iteration of the `roastLevelData` loop
(`src/unnamed/part_003:61-67`): increment the entry's roast level when it
is truthy and a key of the map, otherwise increment the
other/unknown bucket. -/
def roastStep (m : List (String × Nat)) (r : String) : List (String × Nat) :=
  if r ≠ "" ∧ m.any (fun p => p.1 == r) then incKey m r else incKey m ("その他/不明")

/-- Model of `CoffeeTrends.roastLevelData` (`src/unnamed/part_003:51-95`): the
six-bucket roast-level histogram. -/
def roastLevelCounts (entries : List CoffeeEntry) : List (String × Nat) :=
  entries.foldl (fun m e => roastStep m e.roast_level) (ROAST_KEYS.map (fun k => (k, 0)))

/-- The bucket an entry's roast level falls into: the level itself when it
is non-empty and one of the fixed keys, otherwise the other/unknown
bucket. -/
def roastBucket (r : String) : String :=
  if r ≠ "" ∧ r ∈ ROAST_KEYS then r else ("その他/不明")

/-- The ja-JP short month name (`{ month: "short" }`) of a 0-based month
index, e.g. `9 ↦ "10月"`; it depends only on the month, not the year. -/
def monthLabel (m : Fin 12) : String := toString (m.val + 1) ++ "月"

/-- The six bucket labels of `CoffeeTrends.monthlyData`
(`src/unnamed/part_003:128-132`): the short month names of
`new Date(year, month - i, 1)` for i = 5..0; `Fin 12` subtraction models
the month normalization of the `Date` constructor. -/
def lastSixLabels (nowMonth : Fin 12) : List String :=
  (List.range 6).reverse.map (fun i => monthLabel (nowMonth - Fin.ofNat i))

/-- One iteration of the `monthlyData` counting loop
(`src/unnamed/part_003:135-143`): increment the label's bucket when the
label is a key of the map, otherwise skip the entry. -/
def monthStep (m : List (String × Nat)) (label : String) : List (String × Nat) :=
  if m.any (fun p => p.1 == label) then incKey m label else m

/-- Model of `CoffeeTrends.monthlyData` (`src/unnamed/part_003:122-157`): the
monthly histogram over the six precomputed labels. -/
def monthlyCounts (nowMonth : Fin 12) (entries : List CoffeeEntry) :
    List (String × Nat) :=
  entries.foldl (fun m e => monthStep m (monthLabel e.created_at.month))
    ((lastSixLabels nowMonth).map (fun k => (k, 0)))

theorem incKey_mapKeys (keys : List String) (c : String → Nat) (j : String) :
    incKey (keys.map (fun k => (k, c k))) j
      = keys.map (fun k => (k, c k + if k = j then 1 else 0)) := by
  unfold incKey
  rw [List.map_map]
  apply List.map_congr_left
  intro k _
  by_cases h : k = j <;> simp [h]

theorem any_mapKeys (keys : List String) (c : String → Nat) (j : String) :
    ((keys.map (fun k => (k, c k))).any (fun p => p.1 == j)) = true ↔ j ∈ keys := by
  simp only [List.any_eq_true, List.mem_map]
  constructor
  · rintro ⟨p, ⟨k, hk, rfl⟩, hbeq⟩
    simp only [beq_iff_eq] at hbeq
    exact hbeq ▸ hk
  · intro hj
    exact ⟨(j, c j), ⟨j, hj, rfl⟩, by simp⟩

theorem monthStep_fold (keys : List String) (g : CoffeeEntry → String)
    (l : List CoffeeEntry) (c : String → Nat) :
    l.foldl (fun m e => monthStep m (g e)) (keys.map (fun k => (k, c k)))
      = keys.map (fun k => (k, c k + (l.filter (fun e => g e == k)).length)) := by
  induction l generalizing c with
  | nil => simp
  | cons e l ih =>
      rw [List.foldl_cons]
      by_cases hmem : g e ∈ keys
      · have hstep : monthStep (keys.map (fun k => (k, c k))) (g e)
            = keys.map (fun k => (k, c k + if k = g e then 1 else 0)) := by
          unfold monthStep
          rw [if_pos ((any_mapKeys keys c (g e)).2 hmem)]
          exact incKey_mapKeys keys c (g e)
        rw [hstep, ih (fun k => c k + if k = g e then 1 else 0)]
        apply List.map_congr_left
        intro k _
        refine congrArg (Prod.mk k) ?_
        rw [List.filter_cons]
        by_cases hk : g e = k
        · rw [if_pos hk.symm, if_pos (show (g e == k) = true by simp [hk])]
          simp only [List.length_cons]
          omega
        · rw [if_neg (fun hkk : k = g e => hk hkk.symm),
            if_neg (show ¬ (g e == k) = true by simp [hk])]
          omega
      · have hstep : monthStep (keys.map (fun k => (k, c k))) (g e)
            = keys.map (fun k => (k, c k)) := by
          unfold monthStep
          rw [if_neg (fun hany => hmem ((any_mapKeys keys c (g e)).1 hany))]
        rw [hstep, ih c]
        apply List.map_congr_left
        intro k hk
        refine congrArg (Prod.mk k) ?_
        rw [List.filter_cons, if_neg (by
          simp only [beq_iff_eq]
          intro hgk
          exact hmem (by rw [hgk]; exact hk))]

theorem roastStep_mapKeys (c : String → Nat) (r : String) :
    roastStep (ROAST_KEYS.map (fun k => (k, c k))) r
      = incKey (ROAST_KEYS.map (fun k => (k, c k))) (roastBucket r) := by
  by_cases h1 : r = ""
  · simp [roastStep, roastBucket, h1]
  · by_cases h2 : r ∈ ROAST_KEYS
    · have hany := (any_mapKeys ROAST_KEYS c r).2 h2
      simp [roastStep, roastBucket, h1, h2, hany]
    · have hany : ¬ ((ROAST_KEYS.map (fun k => (k, c k))).any
          (fun p => p.1 == r)) = true :=
        fun h => h2 ((any_mapKeys ROAST_KEYS c r).1 h)
      simp [roastStep, roastBucket, h1, h2, hany]

theorem roastBucket_mem (r : String) : roastBucket r ∈ ROAST_KEYS := by
  unfold roastBucket
  split
  · rename_i h
    exact h.2
  · decide

theorem roastStep_fold (l : List CoffeeEntry) (c : String → Nat) :
    l.foldl (fun m e => roastStep m e.roast_level) (ROAST_KEYS.map (fun k => (k, c k)))
      = ROAST_KEYS.map (fun k =>
          (k, c k + (l.filter (fun e => roastBucket e.roast_level == k)).length)) := by
  induction l generalizing c with
  | nil => simp
  | cons e l ih =>
      rw [List.foldl_cons, roastStep_mapKeys c e.roast_level,
        incKey_mapKeys ROAST_KEYS c (roastBucket e.roast_level),
        ih (fun k => c k + if k = roastBucket e.roast_level then 1 else 0)]
      apply List.map_congr_left
      intro k _
      refine congrArg (Prod.mk k) ?_
      rw [List.filter_cons]
      by_cases hk : roastBucket e.roast_level = k
      · rw [if_pos hk.symm,
          if_pos (show (roastBucket e.roast_level == k) = true by simp [hk])]
        simp only [List.length_cons]
        omega
      · rw [if_neg (fun hkk : k = roastBucket e.roast_level => hk hkk.symm),
          if_neg (show ¬ (roastBucket e.roast_level == k) = true by simp [hk])]
        omega

theorem roastLevelCounts_eq (entries : List CoffeeEntry) :
    roastLevelCounts entries
      = ROAST_KEYS.map (fun k =>
          (k, (entries.filter (fun e => roastBucket e.roast_level == k)).length)) := by
  unfold roastLevelCounts
  rw [roastStep_fold entries (fun _ => 0)]
  simp

theorem monthlyCounts_eq (now : Fin 12) (entries : List CoffeeEntry) :
    monthlyCounts now entries
      = (lastSixLabels now).map (fun k =>
          (k, (entries.filter (fun e => monthLabel e.created_at.month == k)).length)) := by
  unfold monthlyCounts
  rw [monthStep_fold (lastSixLabels now) (fun e => monthLabel e.created_at.month)
    entries (fun _ => 0)]
  simp

theorem sum_map_add_split (keys : List String) (f g : String → Nat) :
    (keys.map (fun k => f k + g k)).sum = (keys.map f).sum + (keys.map g).sum := by
  induction keys with
  | nil => rfl
  | cons k ks ih =>
      simp only [List.map_cons, List.sum_cons, ih]
      omega

theorem sum_ite_eq_one (keys : List String) (hnd : keys.Nodup) (x : String)
    (hx : x ∈ keys) :
    (keys.map (fun k => if x = k then 1 else 0)).sum = 1 := by
  induction keys with
  | nil => cases hx
  | cons k ks ih =>
      rw [List.nodup_cons] at hnd
      rcases List.mem_cons.1 hx with h | h
      · rw [List.map_cons, List.sum_cons, if_pos h]
        have h0 : (ks.map (fun q => if x = q then 1 else 0)).sum = 0 := by
          have hmap : ks.map (fun q => if x = q then 1 else 0)
              = ks.map (fun _ => (0 : Nat)) := by
            apply List.map_congr_left
            intro q hq
            refine if_neg (fun he => ?_)
            rw [← he] at hq
            rw [h] at hq
            exact hnd.1 hq
          rw [hmap]
          induction ks with
          | nil => rfl
          | cons a as iha => simp
        rw [h0]
      · have hxk : x ≠ k := fun he => hnd.1 (by rw [← he]; exact h)
        rw [List.map_cons, List.sum_cons, if_neg hxk, ih hnd.2 h]

theorem sum_filter_lengths (keys : List String) (hnd : keys.Nodup)
    (g : CoffeeEntry → String) (l : List CoffeeEntry)
    (hg : ∀ e ∈ l, g e ∈ keys) :
    (keys.map (fun k => (l.filter (fun e => g e == k)).length)).sum = l.length := by
  induction l with
  | nil => simp
  | cons e l ih =>
      have hge := hg e (List.mem_cons_self e l)
      have hsum : keys.map (fun k => (List.filter (fun e => g e == k) (e :: l)).length)
          = keys.map (fun k =>
              (if g e = k then 1 else 0) + (List.filter (fun e => g e == k) l).length) := by
        apply List.map_congr_left
        intro k _
        rw [List.filter_cons]
        by_cases h : g e = k
        · rw [if_pos (by simp [h]), if_pos h]
          simp only [List.length_cons]
          omega
        · rw [if_neg (by simp [h]), if_neg h]
          omega
      rw [hsum, sum_map_add_split keys _ _,
        ih (fun x hx => hg x (List.mem_cons_of_mem e hx)),
        sum_ite_eq_one keys hnd (g e) hge]
      simp only [List.length_cons]
      omega

/-- The spec's roast-level example: four entries with roast levels
浅煎り, "unknown", empty, and absent (both modelled as the empty string). -/
def roastExampleEntries : List CoffeeEntry :=
  [mkEntry ("r1") ("") ("浅煎り") ("") 4 ⟨0, 2024, 0⟩,
   mkEntry ("r2") ("") ("unknown") ("") 4 ⟨0, 2024, 0⟩,
   mkEntry ("r3") ("") ("") ("") 4 ⟨0, 2024, 0⟩,
   mkEntry ("r4") ("") ("") ("") 4 ⟨0, 2024, 0⟩]

/-- C4: the roast-level histogram has exactly the six fixed buckets (the
five enumerated roast levels plus other/unknown); every entry is counted
in exactly one bucket — its roast level when among the five known values,
otherwise other/unknown — the bucket counts sum to the total entry count,
and the spec's four-entry example yields 浅煎り: 1, other/unknown: 3,
rest 0. -/
theorem roast_histogram_partition (entries : List CoffeeEntry) :
    (roastLevelCounts entries).map Prod.fst = ROAST_KEYS ∧
    roastLevelCounts entries
      = ROAST_KEYS.map (fun k =>
          (k, (entries.filter (fun e => roastBucket e.roast_level == k)).length)) ∧
    ((roastLevelCounts entries).map Prod.snd).sum = entries.length ∧
    roastLevelCounts roastExampleEntries
      = [("浅煎り", 1), ("中浅煎り", 0), ("中煎り", 0), ("中深煎り", 0), ("深煎り", 0),
         ("その他/不明", 3)] := by
  have hchar := roastLevelCounts_eq entries
  refine ⟨?_, hchar, ?_, by decide⟩
  · rw [hchar, List.map_map]
    exact List.map_id ROAST_KEYS
  · rw [hchar, List.map_map]
    exact sum_filter_lengths ROAST_KEYS (by decide) _ entries
      (fun e _ => roastBucket_mem e.roast_level)

/-- C5 (amended): the monthly histogram always has exactly six buckets
labeled with the short month names of the six calendar months ending at
the current month, and an entry is counted in a bucket exactly when its
creation month's short label equals that bucket's label. -/
theorem monthly_histogram_amended (now : Fin 12) (entries : List CoffeeEntry) :
    (monthlyCounts now entries).map Prod.fst = lastSixLabels now ∧
    (lastSixLabels now).length = 6 ∧
    monthlyCounts now entries
      = (lastSixLabels now).map (fun k =>
          (k, (entries.filter (fun e => monthLabel e.created_at.month == k)).length)) := by
  have hchar := monthlyCounts_eq now entries
  refine ⟨?_, ?_, hchar⟩
  · rw [hchar, List.map_map]
    exact List.map_id (lastSixLabels now)
  · simp [lastSixLabels]

/-- The actual (year, month) pairs of the six-calendar-month window ending
at the given current month: the spec's notion of "the last six calendar
months", following `new Date(year, month - i, 1)` for i = 5..0. -/
def lastSixMonths (nowYear : Int) (nowMonth : Fin 12) : List (Int × Fin 12) :=
  (List.range 6).reverse.map (fun (i : Nat) =>
    (nowYear + Int.fdiv ((nowMonth.val : Int) - (i : Int)) 12, nowMonth - Fin.ofNat i))

/-- An entry created in October of the year before the reference date. -/
def octoberLastYearEntry : CoffeeEntry := mkEntry ("old") ("") ("") ("") 4 ⟨0, 2025, 9⟩

/-- C5 counterexample: with the current month October 2026, an entry
created in October 2025 lies outside the six-month window (May–October
2026) and yet is counted in the "10月" bucket of the monthly histogram,
because bucketing compares month labels only and the label does not
encode the year. -/
theorem monthly_year_collision :
    (octoberLastYearEntry.created_at.year, octoberLastYearEntry.created_at.month)
        ∉ lastSixMonths 2026 9 ∧
    ("10月", 1) ∈ monthlyCounts 9 [octoberLastYearEntry] := by decide

/-- Increment the counter at index `i`, leaving the list unchanged when
the index is out of range. -/
def bumpAt : List Nat → Nat → List Nat
  | [], _ => []
  | c :: cs, 0 => (c + 1) :: cs
  | c :: cs, n + 1 => c :: bumpAt cs n

/-- Model of `CoffeeTrends.ratingData` (`src/unnamed/part_003:98-119`): five
counters, one per star rating, incrementing bucket `rating - 1` only when
the rating lies in [1, 5]. -/
def ratingCounts (entries : List CoffeeEntry) : List Nat :=
  entries.foldl
    (fun rs e =>
      if 1 ≤ e.rating ∧ e.rating ≤ 5 then bumpAt rs (e.rating - 1).toNat else rs)
    [0, 0, 0, 0, 0]

theorem length_bumpAt (rs : List Nat) (j : Nat) : (bumpAt rs j).length = rs.length := by
  induction rs generalizing j with
  | nil => rfl
  | cons c cs ih =>
      cases j with
      | zero => rfl
      | succ n => simp [bumpAt, ih]

theorem getD_bumpAt_ne (rs : List Nat) (j i : Nat) (h : i ≠ j) :
    (bumpAt rs j).getD i 0 = rs.getD i 0 := by
  induction rs generalizing i j with
  | nil => rfl
  | cons c cs ih =>
      cases j with
      | zero =>
          cases i with
          | zero => exact absurd rfl h
          | succ i => rfl
      | succ n =>
          cases i with
          | zero => rfl
          | succ i =>
              simp only [bumpAt, List.getD_cons_succ]
              exact ih n i (fun hh => h (by omega))

theorem getD_bumpAt_eq (rs : List Nat) (j : Nat) (h : j < rs.length) :
    (bumpAt rs j).getD j 0 = rs.getD j 0 + 1 := by
  induction rs generalizing j with
  | nil => simp at h
  | cons c cs ih =>
      cases j with
      | zero => rfl
      | succ n =>
          simp only [bumpAt, List.getD_cons_succ]
          exact ih n (by simp at h; omega)

theorem ratingCounts_general (l : List CoffeeEntry) (rs : List Nat)
    (h5 : rs.length = 5) :
    (l.foldl (fun rs e =>
        if 1 ≤ e.rating ∧ e.rating ≤ 5 then bumpAt rs (e.rating - 1).toNat else rs)
      rs).length = 5 ∧
    ∀ i : Fin 5,
      (l.foldl (fun rs e =>
          if 1 ≤ e.rating ∧ e.rating ≤ 5 then bumpAt rs (e.rating - 1).toNat else rs)
        rs).getD i.val 0
        = rs.getD i.val 0
          + (l.filter (fun e => decide (e.rating = (i.val : Int) + 1))).length := by
  induction l generalizing rs with
  | nil => exact ⟨h5, fun i => by simp⟩
  | cons e l ih =>
      by_cases he : 1 ≤ e.rating ∧ e.rating ≤ 5
      · simp only [List.foldl_cons, if_pos he]
        have hlen : (bumpAt rs (e.rating - 1).toNat).length = 5 := by
          rw [length_bumpAt]
          exact h5
        obtain ⟨hl, hg⟩ := ih (bumpAt rs (e.rating - 1).toNat) hlen
        refine ⟨hl, fun i => ?_⟩
        rw [hg i, List.filter_cons]
        by_cases hi : e.rating = (i.val : Int) + 1
        · rw [if_pos (by simp [hi])]
          have heq : (i.val : Nat) = (e.rating - 1).toNat := by omega
          rw [heq, getD_bumpAt_eq rs _ (by rw [h5]; omega)]
          simp only [List.length_cons]
          omega
        · rw [if_neg (by simp [hi]),
            getD_bumpAt_ne rs _ _ (fun hc => hi (by omega))]
      · simp only [List.foldl_cons, if_neg he]
        obtain ⟨hl, hg⟩ := ih rs h5
        refine ⟨hl, fun i => ?_⟩
        have hne : ¬ (decide (e.rating = (i.val : Int) + 1)) = true := by
          simp only [decide_eq_true_eq]
          intro hr
          have hlt := i.isLt
          exact he ⟨by omega, by omega⟩
        rw [hg i, List.filter_cons, if_neg hne]

/-- C7: the rating histogram has exactly five buckets, one per integer
rating 1..5; every entry with rating in [1, 5] is counted in exactly the
bucket of its rating, entries with out-of-range ratings are counted in no
bucket, and the counter list always keeps length 5 (no update ever falls
out of bounds or throws). -/
theorem rating_histogram_buckets (entries : List CoffeeEntry) :
    (ratingCounts entries).length = 5 ∧
    ∀ i : Fin 5,
      (ratingCounts entries).getD i.val 0
        = (entries.filter (fun e => decide (e.rating = (i.val : Int) + 1))).length := by
  obtain ⟨hl, hg⟩ := ratingCounts_general entries [0, 0, 0, 0, 0] rfl
  refine ⟨hl, fun i => ?_⟩
  have h := hg i
  have h0 : ([0, 0, 0, 0, 0] : List Nat).getD i.val 0 = 0 := by
    fin_cases i <;> rfl
  rw [h0, Nat.zero_add] at h
  exact h

/-- Model of `CoffeeTrends.brewMethodData` (`src/unnamed/part_003:195-237`): group
by brew method (skipping empty values), sort groups by count descending,
keep the top five. -/
def brewMethodTop5 (entries : List CoffeeEntry) : List (String × Nat) :=
  (sortDescBy (fun p => (p.2 : Int)) (countBy (fun e => e.brew_method) entries)).take 5

/-- What the `CoffeeTrends` component renders: either the "need more
records" placeholder notice or the five charts. -/
inductive TrendsView where
  | placeholder : TrendsView
  | charts : List Nat → List (String × Nat) → List (String × Nat) →
      (ℚ × ℚ × ℚ × ℚ) → List (String × Nat) → TrendsView

/-- Rendering of `CoffeeTrends` (`src/unnamed/part_003:276-333`): below three
entries, the placeholder; otherwise the charts (rating, roast, monthly,
taste averages, brew-method top five) computed from the entry list. -/
def renderTrends (nowMonth : Fin 12) (entries : List CoffeeEntry) : TrendsView :=
  if entries.length < 3 then TrendsView.placeholder
  else TrendsView.charts (ratingCounts entries) (roastLevelCounts entries)
    (monthlyCounts nowMonth entries) (tasteAverages entries) (brewMethodTop5 entries)

/-- C8: with fewer than 3 entries the detailed-analysis view renders the
placeholder notice (and no chart data); with 3 or more entries it renders
the charts computed from the list. -/
theorem trends_threshold (nowMonth : Fin 12) (entries : List CoffeeEntry) :
    (renderTrends nowMonth entries = TrendsView.placeholder ↔ entries.length < 3) ∧
    (3 ≤ entries.length →
      renderTrends nowMonth entries
        = TrendsView.charts (ratingCounts entries) (roastLevelCounts entries)
            (monthlyCounts nowMonth entries) (tasteAverages entries)
            (brewMethodTop5 entries)) := by
  unfold renderTrends
  by_cases h : entries.length < 3
  · rw [if_pos h]
    exact ⟨⟨fun _ => h, fun _ => rfl⟩, fun h3 => absurd h (by omega)⟩
  · rw [if_neg h]
    exact ⟨⟨fun hc => TrendsView.noConfusion hc, fun h3 => absurd h3 h⟩, fun _ => rfl⟩

/-- Three-entry list used to witness the chart-rendering branch. -/
def threeSample : List CoffeeEntry := [plainEntry, janEntry, febEntry]

theorem trends_threshold_witness :
    renderTrends 0 threeSample
      = TrendsView.charts (ratingCounts threeSample) (roastLevelCounts threeSample)
          (monthlyCounts 0 threeSample) (tasteAverages threeSample)
          (brewMethodTop5 threeSample) :=
  (trends_threshold 0 threeSample).2 (by decide)

/-- The error-message mapping of `AuthPage.handleAuth`
(`src/coffeediary/src/app/auth/page.tsx:88-107`): substring matching on
the provider's error text, with a fallback carrying the original text. -/
def authErrorMessage (msg : String) : String :=
  if jsIncludes msg ("Email not confirmed") then
    "メールアドレスが確認されていません。メールをご確認ください。"
  else if jsIncludes msg ("Invalid login credentials") then
    "メールアドレスまたはパスワードが正しくありません。"
  else if jsIncludes msg ("Email already registered") then
    "このメールアドレスは既に登録されています。"
  else if jsIncludes msg ("Password should be at least") then
    "パスワードは8文字以上にしてください。"
  else ("エラーが発生しました: " ++ msg)

/-- C9: the login/signup error mapping is a total function of the
provider's error text determined by substring matching: a message
containing one of the four known substrings (and none of the earlier
ones in the checking order) maps to that substring's fixed localized
message, and a message containing none of them maps to the fallback
message carrying the original text. -/
theorem auth_error_mapping (msg : String) :
    (jsIncludes msg ("Email not confirmed") = true →
      authErrorMessage msg = "メールアドレスが確認されていません。メールをご確認ください。") ∧
    (jsIncludes msg ("Email not confirmed") = false →
      jsIncludes msg ("Invalid login credentials") = true →
      authErrorMessage msg = "メールアドレスまたはパスワードが正しくありません。") ∧
    (jsIncludes msg ("Email not confirmed") = false →
      jsIncludes msg ("Invalid login credentials") = false →
      jsIncludes msg ("Email already registered") = true →
      authErrorMessage msg = "このメールアドレスは既に登録されています。") ∧
    (jsIncludes msg ("Email not confirmed") = false →
      jsIncludes msg ("Invalid login credentials") = false →
      jsIncludes msg ("Email already registered") = false →
      jsIncludes msg ("Password should be at least") = true →
      authErrorMessage msg = "パスワードは8文字以上にしてください。") ∧
    (jsIncludes msg ("Email not confirmed") = false →
      jsIncludes msg ("Invalid login credentials") = false →
      jsIncludes msg ("Email already registered") = false →
      jsIncludes msg ("Password should be at least") = false →
      authErrorMessage msg = "エラーが発生しました: " ++ msg) := by
  unfold authErrorMessage
  refine ⟨?_, ?_, ?_, ?_, ?_⟩
  · intro h1
    simp [h1]
  · intro h1 h2
    simp [h1, h2]
  · intro h1 h2 h3
    simp [h1, h2, h3]
  · intro h1 h2 h3 h4
    simp [h1, h2, h3, h4]
  · intro h1 h2 h3 h4
    simp [h1, h2, h3, h4]

theorem auth_error_mapping_witness :
    authErrorMessage ("Invalid login credentials")
      = "メールアドレスまたはパスワードが正しくありません。" :=
  (auth_error_mapping ("Invalid login credentials")).2.1 (by decide) (by decide)

end CoffeeDiary
